import Mathlib

/-!
A shallow embedding of the `libdict` DICT-format reader.

This file embeds the parts of the `libdict` Rust crate that the verified
claims concern:

* the modified base-64 decoder and the `.index` line/metadata parser
  (`src/index/parsing.rs`),
* exact (non-fuzzy) headword lookup (`src/index/mod.rs`, `Index::find`),
* the uncompressed content reader (`src/uncompressed.rs`),
* the dictzip header parser and chunked random-access fetch path
  (`src/compressed.rs`),
* the reader dispatch of `Dict::from_file` (`src/lib.rs`).

Machine integers are modelled as `Nat` (with explicit sign-extension where
the source converts `i32` to `u64`); byte streams are `List Nat`; fallible
code returns `Except`; code paths that can panic in Rust (out-of-bounds
slice indexing, division by zero, `unreachable!()`) return a dedicated
`panics` result.  External crates are modelled at their interfaces: the
`flate2` raw-DEFLATE decompressor is a function parameter (an oracle), and
the Unicode character classes used by normalization are modelled by their
ASCII restrictions (all concrete inputs below are ASCII).
-/

namespace Libdict

/-- The `MAX_BYTES_FOR_BUFFER` from `src/reader.rs`: the 1 MiB cap on a
definition buffer. -/
def MAX_BYTES_FOR_BUFFER : Nat := 1048576

/-- The `io::ErrorKind` values that the embedded code distinguishes. -/
inductive IoKind where
  | UnexpectedEof
  | Other
deriving DecidableEq

/-- The `DictError` from `src/error.rs` (payloads of wrapped foreign errors are
reduced to the information the code inspects). -/
inductive DictError where
  | InvalidCharacter (c : Char) (line : Nat) (pos : Nat)
  | MissingColumnInIndex (line : Nat)
  | InvalidFileFormat (msg : String)
  | MemoryError
  | WordNotFound (w : String)
  | IoError (kind : IoKind)
  | Utf8Error
  | Deflate
deriving DecidableEq

/-- The `IndexError` from `src/index/error.rs`. -/
inductive IndexError where
  | NoMetadataFound
  | WordNotFound (w : String)
  | InvalidCharacter (c : Char) (line : Nat) (pos : Nat)
  | MissingColumnInIndex (line : Nat)
  | IoError (kind : IoKind)
deriving DecidableEq

instance {ε α : Type} [DecidableEq ε] [DecidableEq α] : DecidableEq (Except ε α) := by
  intro a b
  cases a <;> cases b <;>
    first
      | · rename_i x y
          exact if h : x = y then isTrue (by rw [h]) else isFalse (by intro hc; cases hc; exact h rfl)
      | exact isFalse (by intro h; cases h)

/-- Result of running a piece of Rust code that may panic: `panics` models a
Rust panic (out-of-bounds indexing, arithmetic on invalid operands,
`unreachable!()`), `fails` an `Err(_)` return, `ok` an `Ok(_)` return. -/
inductive RunResult (α : Type) where
  | panics
  | fails (e : DictError)
  | ok (v : α)
deriving DecidableEq

/-- The `Location` from `src/index/mod.rs`. -/
structure Location where
  offset : Nat
  size : Nat
deriving DecidableEq

/-- The `Entry` from `src/index/mod.rs`. -/
structure Entry where
  headword : String
  location : Location
  original : Option String
deriving DecidableEq

instance : Inhabited Entry := ⟨{ headword := "", location := ⟨0, 0⟩, original := none }⟩

/-- Parser context from `src/index/parsing.rs` (`Context`): current line and
the byte position used for `InvalidCharacter` diagnostics. -/
structure Context where
  line : Nat
  pos : Nat
deriving DecidableEq

/-! ## Base-64 decoding (`src/index/parsing.rs`, `get_base` / `decode_number`) -/

/-- The `get_base`: map one digit of the modified base-64 alphabet to its value.
Rust matches on the char ranges `'A'..='Z'`, `'a'..='z'`, `'0'..='9'`, `'+'`,
`'/'`; anything else is `InvalidCharacter` carrying the context's line/pos. -/
def get_base (ctx : Context) (ch : Char) : Except IndexError Nat :=
  if 'A' ≤ ch ∧ ch ≤ 'Z' then .ok (ch.toNat - 65)
  else if 'a' ≤ ch ∧ ch ≤ 'z' then .ok (ch.toNat - 71)
  else if '0' ≤ ch ∧ ch ≤ '9' then .ok (ch.toNat + 4)
  else if ch = '+' then .ok 62
  else if ch = '/' then .ok 63
  else .error (.InvalidCharacter ch ctx.line ctx.pos)

/-- The loop of `decode_number`: iterate over the digit string in reverse,
adding `digit * 64 ^ i` for the `i`-th reversed position.  `l` is the
still-unprocessed reversed suffix, `i` the reversed position, `index` the
accumulator. -/
def decodeAux (ctx : Context) : List Char → Nat → Nat → Except IndexError Nat
  | [], _, index => .ok index
  | ch :: rest, i, index =>
    match get_base ctx ch with
    | .error e => .error e
    | .ok d => decodeAux ctx rest (i + 1) (index + d * 64 ^ i)

/-- The `decode_number`: big-endian modified base-64 decoding, implemented by the
source as a reversed-order little-endian accumulation. -/
def decode_number (ctx : Context) (s : List Char) : Except IndexError Nat :=
  decodeAux ctx s.reverse 0 0

/-- Spec-side digit table (§4.1 of the design): `A..Z a..z 0..9 + /` map to
`0..63`.  Used to state the specification formula; compare `get_base`. -/
def specDigit (ch : Char) : Nat :=
  if 'A' ≤ ch ∧ ch ≤ 'Z' then ch.toNat - 65
  else if 'a' ≤ ch ∧ ch ≤ 'z' then ch.toNat - 71
  else if '0' ≤ ch ∧ ch ≤ '9' then ch.toNat + 4
  else if ch = '+' then 62
  else if ch = '/' then 63
  else 0

/-- Whether a char belongs to the modified base-64 digit alphabet. -/
def isBaseDigit (ch : Char) : Bool :=
  ('A' ≤ ch ∧ ch ≤ 'Z') ∨ ('a' ≤ ch ∧ ch ≤ 'z') ∨ ('0' ≤ ch ∧ ch ≤ '9') ∨ ch = '+' ∨ ch = '/'

/-- Spec-side big-endian value of a digit string: `Σ digit(c_i) · 64^(L-1-i)`
(most significant digit first), written by recursion on the string. -/
def bigEndianValue : List Char → Nat
  | [] => 0
  | c :: rest => specDigit c * 64 ^ rest.length + bigEndianValue rest

/-! ## Index line parsing (`src/index/parsing.rs`, `parse_line`) -/

/-- Rust's `str::split('\t')` on the character level: splits at every
separator, keeping empty pieces, and yields `[[]]` on the empty string. -/
def splitOnChar (sep : Char) : List Char → List (List Char)
  | [] => [[]]
  | c :: rest =>
    let r := splitOnChar sep rest
    if c = sep then [] :: r
    else
      match r with
      | [] => [[c]]
      | h :: t => (c :: h) :: t

/-- Byte length of a char sequence under UTF-8 — Rust's `str::len`. -/
def byteLen (l : List Char) : Nat := l.foldl (fun a c => a + c.utf8Size) 0

/-- The field-consuming body of `parse_line` on the tab-split pieces: fewer
than three pieces is `MissingColumnInIndex` with the current line (the
source raises the identical error whichever `split.next()` comes up empty).
The context passed to the offset decoder carries `pos = word.len()`, the one
passed to the size decoder `pos = word.len() + s1.len()`, exactly as the
source mutates `ctx.pos`; a successful parse resets the context to the next
line. -/
def parseFields (ctx : Context) : List (List Char) → Except IndexError (Entry × Context)
  | word :: s1 :: s2 :: rest3 =>
    match decode_number { line := ctx.line, pos := byteLen word } s1 with
    | .error e => .error e
    | .ok offset =>
      match decode_number { line := ctx.line, pos := byteLen word + byteLen s1 } s2 with
      | .error e => .error e
      | .ok size =>
        .ok ({ headword := String.mk word,
               location := { offset := offset, size := size },
               original := rest3.head?.map String.mk },
             { line := ctx.line + 1, pos := 0 })
  | _ => .error (.MissingColumnInIndex ctx.line)

/-- The `parse_line`: split a line at tabs into
`headword \t offset \t size [\t original]` and decode the fields. -/
def parse_line (ctx : Context) (line : List Char) : Except IndexError (Entry × Context) :=
  parseFields ctx (splitOnChar '\t' line)

/-! ## Metadata scan (`src/index/parsing.rs`, `parse_metadata`) -/

/-- The `MetadataIndex` from `src/index/metadata.rs`. -/
structure MetadataIndex where
  info : Option Location := none
  short_name : Option Location := none
  url : Option Location := none
  all_chars : Bool := false
  case_sensitive : Bool := false
  should_normalize : Bool := false
deriving DecidableEq

/-- Substring test on char lists — Rust's `str::contains` for a literal
pattern. -/
def listContains (pat : List Char) : List Char → Bool
  | [] => pat.isEmpty
  | c :: rest => pat.isPrefixOf (c :: rest) || listContains pat rest

/-- The `str::contains` on `String`s. -/
def strContains (s pat : String) : Bool := listContains pat.data s.data

/-- The `match info_section { .. }` arm of `parse_metadata`: classify the
headword tail after the `00-database-` / `00database` prefix and update the
`MetadataIndex` accordingly (`"case"` and `"dictfmt"` are substring tests). -/
def classifyMeta (m : MetadataIndex) (tail : String) (location : Location) : MetadataIndex :=
  if tail = "info" then { m with info := some location }
  else if tail = "short" then { m with short_name := some location }
  else if tail = "url" then { m with url := some location }
  else if tail = "allchars" then { m with all_chars := true }
  else if strContains tail "case" then { m with case_sensitive := true }
  else if strContains tail "dictfmt" then { m with should_normalize := true }
  else m

/-- Rust `str::trim_end` (here restricted to the ASCII whitespace the
concrete inputs use). -/
def trimEndChars (l : List Char) : List Char :=
  (l.reverse.dropWhile Char.isWhitespace).reverse

/-- The metadata prefix test of `parse_metadata`: the tail after
`00-database-` (byte slice `[12..]`) or `00database` (byte slice `[10..]`).
Both prefixes are ASCII, so the source's `starts_with` and byte slicing
agree with the character-level prefix test and drop. -/
def metaSection (headword : String) : Option String :=
  if "00-database-".data.isPrefixOf headword.data then some (String.mk (headword.data.drop 12))
  else if "00database".data.isPrefixOf headword.data then some (String.mk (headword.data.drop 10))
  else none

/-- The loop of `parse_metadata`: read a line, parse it, classify metadata
headwords; a non-metadata line terminates the scan once a metadata line has
been seen (`reading_info`) and is skipped before that.  Each raw line is
`trim_end`-ed before parsing, as the source does after `read_line`. -/
def parseMetadataGo : List (List Char) → Context → MetadataIndex → Bool →
    Except IndexError MetadataIndex
  | [], _, metadata, _ => .ok metadata
  | l :: rest, ctx, metadata, reading_info =>
    match parse_line ctx (trimEndChars l) with
    | .error e => .error e
    | .ok (entry, ctx') =>
      match metaSection entry.headword with
      | some s => parseMetadataGo rest ctx' (classifyMeta metadata s entry.location) true
      | none => if reading_info then .ok metadata else parseMetadataGo rest ctx' metadata false

/-- The `parse_metadata`, with the input stream given as its list of lines
(the contents `read_line` would yield, without the trailing newline). -/
def parse_metadata (lines : List (List Char)) : Except IndexError MetadataIndex :=
  parseMetadataGo lines { line := 0, pos := 0 } {} false

/-! ## Headword lookup (`src/index/mod.rs`) -/

/-- The `Metadata` from `src/index/metadata.rs` (the textual fields are already
resolved to strings and are not inspected by `find`). -/
structure Metadata where
  info : Option String := none
  short_name : Option String := none
  url : Option String := none
  all_chars : Bool := false
  case_sensitive : Bool := false
  should_normalize : Bool := false
deriving DecidableEq

/-- The `normalize_headword`: drop non-alphanumeric, non-whitespace characters
unless `all_chars`, then lowercase unless `case_sensitive`.  The source uses
the Unicode `char::is_alphanumeric` / `char::is_whitespace` /
`char::to_lowercase`; the model uses their ASCII restrictions
(`Char.isAlphanum`, `Char.isWhitespace`, `Char.toLower`), which agree on all
concrete inputs below. -/
def normalize_headword (metadata : Metadata) (headword : String) : String :=
  let cs :=
    if !metadata.all_chars then
      headword.data.filter (fun c => c.isAlphanum || c.isWhitespace)
    else headword.data
  String.mk (if !metadata.case_sensitive then cs.map Char.toLower else cs)

/-- Rust `str::trim` (ASCII whitespace; see `trimEndChars`). -/
def trimChars (l : List Char) : List Char :=
  (l.dropWhile Char.isWhitespace).reverse.dropWhile Char.isWhitespace |>.reverse

/-- Character order by code point — Rust's `char` order; on UTF-8 strings the
induced lexicographic order coincides with Rust's byte-wise `str::cmp`. -/
def cmpChar (a b : Char) : Ordering := compare a.toNat b.toNat

/-- Lexicographic comparison of char lists. -/
def cmpCharList : List Char → List Char → Ordering
  | [], [] => .eq
  | [], _ :: _ => .lt
  | _ :: _, [] => .gt
  | a :: as_, b :: bs =>
    match cmpChar a b with
    | .eq => cmpCharList as_ bs
    | o => o

/-- The `str::cmp` on `String`s. -/
def cmpString (a b : String) : Ordering := cmpCharList a.data b.data

/-- The loop of Rust's `slice::binary_search_by`: invariant `left ≤ right ≤
len`; `mid = left + (right-left)/2`; comparator `Less` moves `left` past
`mid`, `Greater` moves `right` to `mid`, `Equal` returns `Ok(mid)`;
exhaustion returns `Err(left)`.  `fuel` only bounds the recursion: since
`right - left` strictly decreases, `fuel = entries.length + 1` never runs
out. -/
def binarySearchGo (entries : List Entry) (cmp : Entry → Ordering) :
    Nat → Nat → Nat → Except Nat Nat
  | 0, left, _ => .error left
  | fuel + 1, left, right =>
    if left < right then
      let size := right - left
      let mid := left + size / 2
      match cmp (entries.getD mid default) with
      | .lt => binarySearchGo entries cmp fuel (mid + 1) right
      | .gt => binarySearchGo entries cmp fuel left mid
      | .eq => .ok mid
    else .error left

/-- The `slice::binary_search_by` over the entry vector. -/
def binary_search_by (entries : List Entry) (cmp : Entry → Ordering) : Except Nat Nat :=
  binarySearchGo entries cmp (entries.length + 1) 0 entries.length

/-- The `break` condition of the two run-extension loops in `find`:
an entry is kept while this is true.  Mirrors
`if relaxed && unidecode(..) != headword { break } else if headword != .. { break }`;
`translit` stands for the external `unidecode` crate. -/
def keepEntry (translit : String → String) (relaxed : Bool) (headword : String)
    (entry : Entry) : Bool :=
  if relaxed && (translit entry.headword ≠ headword : Bool) then false
  else !(entry.headword ≠ headword : Bool)

/-- The `Index::find` with `fuzzy = false` (the binary-search branch; the
`fuzzy = true` branch linearly scans with the external `levenshtein` crate
and is outside the claims below).  The query is normalized and trimmed, the
sorted entries are binary-searched, and on a hit the source gathers
neighbours: the first loop iterates `i in 0..pivot` **from the start of the
array** and pushes entries while they compare equal, the second loop walks
`pivot+1..len`. -/
def find (translit : String → String) (metadata : Metadata) (entries : List Entry)
    (headword : String) (relaxed : Bool) : Except IndexError (List Entry) :=
  let headword := String.mk (trimChars (normalize_headword metadata headword).data)
  let cmp : Entry → Ordering := fun entry =>
    if relaxed then cmpString (String.mk (trimChars (translit entry.headword).data)) headword
    else cmpString entry.headword headword
  match binary_search_by entries cmp with
  | .ok pivot =>
    let leftRun := (entries.take pivot).takeWhile (keepEntry translit relaxed headword)
    let rightRun := (entries.drop (pivot + 1)).takeWhile (keepEntry translit relaxed headword)
    .ok (leftRun ++ [entries.getD pivot default] ++ rightRun)
  | .error _ => .error (.WordNotFound headword)

/-! ## Uncompressed content reader (`src/uncompressed.rs`) -/

/-- The `Uncompressed`: a readable, seekable byte source plus its total length. -/
structure Uncompressed where
  reader : List Nat
  length : Nat
deriving DecidableEq

/-- The `Uncompressed::new`: record the length obtained by seeking to the end. -/
def Uncompressed.new (bytes : List Nat) : Except DictError Uncompressed :=
  .ok { reader := bytes, length := bytes.length }

/-- The `Uncompressed::fetch_definition`: validate `size ≤ MAX_BYTES_FOR_BUFFER`
and `offset + size ≤ length`, seek, read up to `size` bytes and check the
count.  (The final UTF-8 conversion of the source is left at the byte level;
the claims are about the bytes.) -/
def Uncompressed.fetch_definition (u : Uncompressed) (location : Location) :
    Except DictError (List Nat) :=
  if ¬ location.size ≤ MAX_BYTES_FOR_BUFFER then .error .MemoryError
  else if ¬ location.offset + location.size ≤ u.length then .error (.IoError .UnexpectedEof)
  else
    let read_data := (u.reader.drop location.offset).take location.size
    if read_data.length ≠ location.size then .error (.IoError .UnexpectedEof)
    else .ok read_data

/-! ## Dictzip header parsing (`src/compressed.rs`, `Compressed::new`) -/

/-- Flag masks from `src/compressed.rs`. -/
def GZ_FEXTRA : Nat := 4

/-- The `FNAME` flag mask. -/
def GZ_FNAME : Nat := 8

/-- The `FCOMMENT` flag mask. -/
def GZ_COMMENT : Nat := 16

/-- The `FHCRC` flag mask. -/
def GZ_FHCRC : Nat := 2

/-- The `LittleEndian::read_u16` of the two bytes at index `i` of an in-memory
buffer (the source always slices in bounds first). -/
def readU16LE (l : List Nat) (i : Nat) : Nat := l.getD i 0 + 256 * l.getD (i + 1) 0

/-- The `read_i32::<LittleEndian>` reads these four bytes as an unsigned 32-bit
value; the sign handling is separate (see `Compressed.new`). -/
def readU32LE (l : List Nat) (i : Nat) : Nat :=
  l.getD i 0 + 256 * l.getD (i + 1) 0 + 65536 * l.getD (i + 2) 0 + 16777216 * l.getD (i + 3) 0

/-- The `while buf.read_u8()? != 0 {}`: consume bytes through the next NUL.
The first argument is the stream's remaining bytes, the second the absolute
position; returns the position one past the NUL, or `UnexpectedEof` if the
stream ends first. -/
def skipPastNul : List Nat → Nat → Except DictError Nat
  | [], _ => .error (.IoError .UnexpectedEof)
  | b :: rest, pos => if b = 0 then .ok (pos + 1) else skipPastNul rest (pos + 1)

/-- The `?` operator on the header parse path: an I/O failure from a skip
loop aborts `Compressed::new` with the wrapped error. -/
def liftSkip {α : Type} (r : Except DictError Nat) (f : Nat → RunResult α) : RunResult α :=
  match r with
  | .error e => .fails e
  | .ok pos => f pos

/-- A compressed chunk: offset and length within the compressed file
(`Chunk` in `src/compressed.rs`). -/
structure Chunk where
  offset : Nat
  length : Nat
deriving DecidableEq

/-- The `Compressed`: the parsed dictzip reader state.  `buf` is the underlying
compressed byte stream (its seek position is irrelevant: every read seeks
absolutely). -/
structure Compressed where
  buf : List Nat
  uchunk_length : Nat
  end_compressed_data : Nat
  chunk_offsets : List Nat
  ufile_length : Nat
deriving DecidableEq

/-- The fold that pushes one chunk offset and advances the running end
position, mirroring `for size in chunk_sizes { chunk_offsets.push(..); end += size }`. -/
def pushOffsets (start : Nat) (sizes : List Nat) : List Nat × Nat :=
  sizes.foldl (fun acc size => (acc.1 ++ [acc.2], acc.2 + size)) ([], start)

/-- The `Compressed::new`: bit-exact dictzip header parse.  Failed reads are
`IoError UnexpectedEof` (as Rust's `read_exact`), failed validations are
`InvalidFileFormat`, and the slice accesses into `fextra` that Rust performs
without a bound check surface as `panics` when out of bounds (they can only
be reached with `xlen` below 10).  The final length field is read with
`read_i32` and cast `as u64`, i.e. sign-extended: that conversion is modelled
explicitly. -/
def Compressed.new (bytes : List Nat) : RunResult Compressed :=
  -- let mut header = vec![0; 12]; buf.read_exact(&mut header)?
  if ¬ 12 ≤ bytes.length then .fails (.IoError .UnexpectedEof)
  else
    let header := bytes.take 12
    if ¬ header.take 2 = [0x1F, 0x8B] then .fails (.InvalidFileFormat "Not in gzip format")
    else
      let flags := header.getD 3 0
      if flags &&& GZ_FEXTRA = 0 then
        .fails (.InvalidFileFormat "Extra flag (FLG.FEXTRA) not set. Not in gzip + dzip format.")
      else
        let xlen := readU16LE header 10
        -- let mut fextra = vec![0; xlen]; buf.read_exact(&mut fextra)?
        if ¬ 12 + xlen ≤ bytes.length then .fails (.IoError .UnexpectedEof)
        else
          let fextra := (bytes.drop 12).take xlen
          if ¬ 2 ≤ fextra.length then .panics  -- &fextra[0..2]
          else if ¬ fextra.take 2 = [0x52, 0x41] then
            .fails (.InvalidFileFormat "No dictzip info found in FEXTRA header")
          else if ¬ 4 ≤ fextra.length then .panics  -- &fextra[2..4]
          else if ¬ readU16LE fextra 2 = xlen - 4 then
            .fails (.InvalidFileFormat "Subfield length does not match the FEXTRA length")
          else if ¬ 6 ≤ fextra.length then .panics  -- &fextra[4..6]
          else if ¬ readU16LE fextra 4 = 1 then
            .fails (.InvalidFileFormat "Unimplemented dictzip version, only version 1 supported")
          else if ¬ 8 ≤ fextra.length then .panics  -- &fextra[6..8]
          else
            let uchunk_length := readU16LE fextra 6
            if ¬ 10 ≤ fextra.length then .panics  -- &fextra[8..10]
            else
              let chunk_count := readU16LE fextra 8
              if chunk_count = 0 then
                .fails (.InvalidFileFormat "No compressed chunks in file or broken header information")
              else
                let max_chunks := (fextra.length - 10) / 2
                if ¬ max_chunks = chunk_count then
                  .fails (.InvalidFileFormat "Chunk count does not fit the FEXTRA field")
                else
                  -- skip optional FNAME / FCOMMENT / FHCRC fields
                  let pos0 := 12 + xlen
                  liftSkip (if flags &&& GZ_FNAME ≠ 0 then skipPastNul (bytes.drop pos0) pos0
                            else .ok pos0) fun pos1 =>
                  liftSkip (if flags &&& GZ_COMMENT ≠ 0 then skipPastNul (bytes.drop pos1) pos1
                            else .ok pos1) fun pos2 =>
                      let pos3 := if flags &&& GZ_FHCRC ≠ 0 then pos2 + 2 else pos2
                      -- chunk sizes from &fextra[10..10+2*chunk_count]
                      let chunk_sizes :=
                        (List.range chunk_count).map (fun i => readU16LE fextra (10 + 2 * i))
                      let offs := pushOffsets pos3 chunk_sizes
                      let chunk_offsets := offs.1
                      let end_compressed_data := offs.2
                      if ¬ chunk_offsets.length = chunk_count then
                        .fails (.InvalidFileFormat "Chunk offset count mismatch")
                      else
                        -- buf.seek(Start(end)); buf.read_i32::<LittleEndian>()? as u64
                        if ¬ end_compressed_data + 4 ≤ bytes.length then
                          .fails (.IoError .UnexpectedEof)
                        else
                          let v := readU32LE bytes end_compressed_data
                          let ufile_length := if v < 2 ^ 31 then v else v + (2 ^ 64 - 2 ^ 32)
                          .ok { buf := bytes, uchunk_length := uchunk_length,
                                end_compressed_data := end_compressed_data,
                                chunk_offsets := chunk_offsets,
                                ufile_length := ufile_length }

/-! ## Dictzip random-access fetch (`src/compressed.rs`, `get_chunks_for` /
`fetch_definition`) -/

/-- The chunk with index `id`, as the body of `get_chunks_for` builds it:
offset `chunk_offsets[id]`, length up to the next offset or to
`end_compressed_data` for the last chunk.  (Only evaluated after the bound
on `id` has been established; subtraction is on `u64`.) -/
def chunk_of (c : Compressed) (id : Nat) : Chunk :=
  { offset := c.chunk_offsets.getD id 0,
    length := (match c.chunk_offsets[id + 1]? with
               | some next => next
               | none => c.end_compressed_data) - c.chunk_offsets.getD id 0 }

/-- The loop of `get_chunks_for` over the chunk ids `start..=end`:
`chunk_offsets[id]` is indexed without a bound check, so an out-of-range id
panics. -/
def getChunksGo (c : Compressed) : List Nat → RunResult (List Chunk)
  | [] => .ok []
  | id :: rest =>
    if id < c.chunk_offsets.length then
      match getChunksGo c rest with
      | .ok chunks => .ok (chunk_of c id :: chunks)
      | r => r
    else .panics

/-- The `get_chunks_for`: compute the inclusive chunk range
`start_offset / uchunk_length ..= (start_offset + length) / uchunk_length`
and collect those chunks.  A zero `uchunk_length` makes the Rust division
panic. -/
def get_chunks_for (c : Compressed) (start_offset length : Nat) : RunResult (List Chunk) :=
  if c.uchunk_length = 0 then .panics
  else
    let start := start_offset / c.uchunk_length
    let stop := (start_offset + length) / c.uchunk_length
    getChunksGo c (List.range' start (stop - start + 1))

/-- The `Compressed::inflate` writes into a fresh `vec![0; uchunk_length]`
buffer: whatever the decompressor produces is truncated to `uchunk_length`
bytes and zero-padded up to that length. -/
def inflate_model (uchunk_length : Nat) (out : List Nat) : List Nat :=
  out.take uchunk_length ++ List.replicate (uchunk_length - out.length) 0

/-- One iteration of the fetch loop: seek to the chunk, `read_exact` its
compressed bytes, and inflate them.  `oracle` stands for the external
`flate2` raw-DEFLATE decompressor. -/
def readAndInflate (oracle : List Nat → Except DictError (List Nat)) (c : Compressed)
    (chunk : Chunk) : Except DictError (List Nat) :=
  if chunk.offset + chunk.length ≤ c.buf.length then
    match oracle ((c.buf.drop chunk.offset).take chunk.length) with
    | .error e => .error e
    | .ok out => .ok (inflate_model c.uchunk_length out)
  else .error (.IoError .UnexpectedEof)

/-- The read-and-inflate loop of `fetch_definition` over the gathered
chunks, aborting at the first error as the `?` operators do. -/
def mapInflate (oracle : List Nat → Except DictError (List Nat)) (c : Compressed) :
    List Chunk → Except DictError (List (List Nat))
  | [] => .ok []
  | chunk :: rest =>
    match readAndInflate oracle c chunk with
    | .error e => .error e
    | .ok d =>
      match mapInflate oracle c rest with
      | .error e => .error e
      | .ok ds => .ok (d :: ds)

/-- Rust slice `l[a..]`: panics when `a` exceeds the length. -/
def sliceFrom (l : List Nat) (a : Nat) : Option (List Nat) :=
  if a ≤ l.length then some (l.drop a) else none

/-- Rust slice `l[..b]`: panics when `b` exceeds the length. -/
def sliceTo (l : List Nat) (b : Nat) : Option (List Nat) :=
  if b ≤ l.length then some (l.take b) else none

/-- Rust slice `l[a..b]`: panics when `a > b` or `b` exceeds the length. -/
def sliceRange (l : List Nat) (a b : Nat) : Option (List Nat) :=
  if a ≤ b ∧ b ≤ l.length then some ((l.drop a).take (b - a)) else none

/-- The cut-and-splice step of `fetch_definition` on the inflated chunk
buffers: one chunk is sliced `[cut_front .. cut_front+length]`; for several,
the first contributes `[cut_front..]`, interior chunks contribute fully,
and the last contributes `[..(length+cut_front) % uchunk_length]`.  An empty
buffer list is the source's `unreachable!()`. -/
def splice (uchunk_length cut_front length : Nat) : List (List Nat) → RunResult (List Nat)
  | [] => .panics
  | [d] =>
    match sliceRange d cut_front (cut_front + length) with
    | some r => .ok r
    | none => .panics
  | d :: ds =>
    let remaining_bytes := (length + cut_front) % uchunk_length
    match sliceFrom d cut_front, sliceTo (ds.getLastD []) remaining_bytes with
    | some front, some back => .ok (front ++ ds.dropLast.flatten ++ back)
    | _, _ => .panics

/-- The `Compressed::fetch_definition`: validate `length ≤ MAX_BYTES_FOR_BUFFER`
(`MemoryError`) and `start_offset + length < ufile_length` (note the
source's strict `<`; on failure `IoError UnexpectedEof`), gather and inflate
the covering chunks, then cut and splice.  (The final UTF-8 conversion of
the source is left at the byte level; the claims are about the bytes.) -/
def Compressed.fetch_definition (oracle : List Nat → Except DictError (List Nat))
    (c : Compressed) (start_offset length : Nat) : RunResult (List Nat) :=
  if ¬ length ≤ MAX_BYTES_FOR_BUFFER then .fails .MemoryError
  else if ¬ start_offset + length < c.ufile_length then .fails (.IoError .UnexpectedEof)
  else
    match get_chunks_for c start_offset length with
    | .panics => .panics
    | .fails e => .fails e
    | .ok chunks =>
      match mapInflate oracle c chunks with
      | .error e => .fails e
      | .ok data =>
        let cut_front := start_offset % c.uchunk_length
        splice c.uchunk_length cut_front length data

/-! ## Reader dispatch (`src/lib.rs`, `Dict::from_file`) -/

/-- Which content reader `Dict::from_file` constructed. -/
inductive ReaderChoice where
  | compressed (c : Compressed)
  | uncompressed (u : Uncompressed)
deriving DecidableEq

/-- The reader-selection step of `Dict::from_file`: the compressed reader is
chosen exactly when the dict path's extension is `dz`
(`dict_path.extension() == Some("dz")`); the file contents play no part in
the choice.  (The subsequent index construction is outside the claims.) -/
def from_file (dict_extension : Option String) (dict_bytes : List Nat) :
    RunResult ReaderChoice :=
  if dict_extension = some "dz" then
    match Compressed.new dict_bytes with
    | .panics => .panics
    | .fails e => .fails e
    | .ok c => .ok (.compressed c)
  else
    match Uncompressed.new dict_bytes with
    | .error e => .fails e
    | .ok u => .ok (.uncompressed u)

/-! ## Lemmas about the base-64 decoder -/

/-- Little-endian value of a digit string (least significant digit first);
this is the quantity `decodeAux` accumulates over the reversed string. -/
def leValue : List Char → Nat
  | [] => 0
  | c :: rest => specDigit c + 64 * leValue rest

/-- The first character of `l` that is not a base-64 digit (`'A'` as an
unreachable fallback). -/
def firstNonDigit (l : List Char) : Char :=
  (l.find? (fun c => !isBaseDigit c)).getD 'A'

/-- The entry parsed from a raw line (with the incoming context fixed to the
initial one; by `parse_line_ok_ctx` the entry does not depend on it). -/
def lineEntry (l : List Char) : Option Entry :=
  match parse_line ⟨0, 0⟩ (trimEndChars l) with
  | .ok (e, _) => some e
  | .error _ => none

/-- A line that parses and whose headword is not a metadata headword. -/
def wfNonMetaLine (l : List Char) : Bool :=
  match lineEntry l with
  | some e => (metaSection e.headword).isNone
  | none => false

/-- A line that parses and whose headword is a metadata headword. -/
def wfMetaLine (l : List Char) : Bool :=
  match lineEntry l with
  | some e => (metaSection e.headword).isSome
  | none => false

/-- The effect of one metadata line on the accumulated `MetadataIndex`. -/
def metaStep (m : MetadataIndex) (l : List Char) : MetadataIndex :=
  match lineEntry l with
  | some e =>
    match metaSection e.headword with
    | some s => classifyMeta m s e.location
    | none => m
  | none => m

/-- The `MetadataIndex` accumulated from a run of metadata lines. -/
def accumulateMeta (lines : List (List Char)) : MetadataIndex := lines.foldl metaStep {}

/-! ## The exact-find left-run walk (claim C1) -/

/-- A sorted entry vector with a run of three `b` entries at indices 1–3.
Binary search over five entries probes index 2 first, so the pivot for the
query `b` is index 2 and the run extends one entry to its left. -/
def c1Entries : List Entry :=
  [ { headword := "a", location := ⟨0, 1⟩, original := none },
    { headword := "b", location := ⟨1, 1⟩, original := none },
    { headword := "b", location := ⟨2, 1⟩, original := none },
    { headword := "b", location := ⟨3, 1⟩, original := none },
    { headword := "c", location := ⟨4, 1⟩, original := none } ]

/-! ## Dictzip header and dispatch evaluations (claims C5, C6, C7) -/

/-- Whether a run result is an `InvalidFileFormat` failure. -/
def isInvalidFileFormat {α : Type} : RunResult α → Bool
  | .fails (.InvalidFileFormat _) => true
  | _ => false

/-- A complete, valid dictzip byte stream: 12-byte gzip header with only
`FEXTRA` set and `XLEN = 12`, an `RA` version-1 subfield declaring one
chunk of compressed size 5 and `uchunk_length` 10, five payload bytes and
the four-byte little-endian uncompressed length 7. -/
def exDzBytes : List Nat :=
  [0x1F, 0x8B, 8, 4, 0, 0, 0, 0, 0, 0, 12, 0] ++
  [0x52, 0x41, 8, 0, 1, 0, 10, 0, 1, 0, 5, 0] ++
  [9, 9, 9, 9, 9] ++ [7, 0, 0, 0]

/-- The reader state `Compressed::new` builds from `exDzBytes`. -/
def exDzParsed : Compressed :=
  { buf := exDzBytes, uchunk_length := 10, end_compressed_data := 29,
    chunk_offsets := [24], ufile_length := 7 }

/-- A dictzip byte stream identical to `exDzBytes` except that the 32-bit
length field is `FF FF FF FF`. -/
def c5Bytes : List Nat :=
  [0x1F, 0x8B, 8, 4, 0, 0, 0, 0, 0, 0, 12, 0] ++
  [0x52, 0x41, 8, 0, 1, 0, 10, 0, 1, 0, 5, 0] ++
  [9, 9, 9, 9, 9] ++ [0xFF, 0xFF, 0xFF, 0xFF]

/-! ## Dictzip fetch path (claims C2, C3, C10) -/

/-- The identity "decompressor": used for concrete states whose chunk bytes
are stored uncompressed, a model instance of the `flate2` oracle. -/
def exOracle : List Nat → Except DictError (List Nat) := fun data => .ok data

/-- A compressed reader over the 8-byte content `10,...,80` stored in two
plain 4-byte chunks (`uchunk_length = 4`, `ufile_length = 8`). -/
def exC3 : Compressed :=
  { buf := [10, 20, 30, 40, 50, 60, 70, 80], uchunk_length := 4,
    end_compressed_data := 8, chunk_offsets := [0, 4], ufile_length := 8 }

/-- A reader state violating the coverage relation
`ufile_length ≤ chunk_count · uchunk_length`: one chunk of size 1 but
`ufile_length = 5`. -/
def cBad : Compressed :=
  { buf := [0, 0, 0, 0, 0], uchunk_length := 1, end_compressed_data := 1,
    chunk_offsets := [0], ufile_length := 5 }

/-! ## Splice invariance of the dictzip fetch (claim C2)

The uncompressed content of the dictzip file is an abstract byte list
`content`; decompressing chunk `id` yields the `id`-th `uchunk_length`-sized
window of it.  Under the chunk-directory invariants, `fetch_definition`'s
cut-and-splice of the covering chunks reproduces the slice
`content[offset .. offset+size)`. -/

/-- The `id`-th `uchunk_length`-sized window of the uncompressed content:
what the raw-DEFLATE decompression of chunk `id` produces (shorter than
`uchunk_length` only for the last chunk). -/
def chunkWindow (content : List Nat) (u id : Nat) : List Nat :=
  (content.drop (id * u)).take u

/-- The uncompressed content behind `exC`: seven bytes in three chunks of
`uchunk_length = 3` (the last chunk holds a single byte). -/
def exContent : List Nat := [1, 2, 3, 4, 5, 6, 7]

/-- A dictzip reader state over `exContent` whose chunks are stored
uncompressed back-to-back (`exOracle` is the matching decompressor). -/
def exC : Compressed :=
  { buf := exContent, uchunk_length := 3, end_compressed_data := 7,
    chunk_offsets := [0, 3, 6], ufile_length := 7 }

theorem get_base_of_digit (ctx : Context) (ch : Char) (h : isBaseDigit ch = true) :
    get_base ctx ch = .ok (specDigit ch) := by
  unfold get_base specDigit
  unfold isBaseDigit at h
  split_ifs <;> simp_all

theorem get_base_of_nonDigit (ctx : Context) (ch : Char) (h : isBaseDigit ch = false) :
    get_base ctx ch = .error (.InvalidCharacter ch ctx.line ctx.pos) := by
  unfold get_base
  unfold isBaseDigit at h
  split_ifs <;> simp_all

theorem decodeAux_of_digits (ctx : Context) :
    ∀ (l : List Char), l.all isBaseDigit = true → ∀ (i acc : Nat),
      decodeAux ctx l i acc = .ok (acc + leValue l * 64 ^ i) := by
  intro l
  induction l with
  | nil => intro _ i acc; simp [decodeAux, leValue]
  | cons c rest ih =>
    intro h i acc
    rw [List.all_cons, Bool.and_eq_true] at h
    rw [decodeAux, get_base_of_digit ctx c h.1]
    show decodeAux ctx rest (i + 1) (acc + specDigit c * 64 ^ i) = _
    rw [ih h.2 (i + 1) (acc + specDigit c * 64 ^ i)]
    congr 1
    simp only [leValue]
    ring

theorem decodeAux_of_nonDigit (ctx : Context) :
    ∀ (l : List Char), l.all isBaseDigit = false → ∀ (i acc : Nat),
      decodeAux ctx l i acc = .error (.InvalidCharacter (firstNonDigit l) ctx.line ctx.pos) := by
  intro l
  induction l with
  | nil => intro h; simp at h
  | cons c rest ih =>
    intro h i acc
    rw [List.all_cons, Bool.and_eq_false_iff] at h
    rcases hc : isBaseDigit c with _ | _
    · rw [decodeAux, get_base_of_nonDigit ctx c hc]
      unfold firstNonDigit
      rw [List.find?_cons_of_pos _ (by simp [hc])]
      rfl
    · have hrest : rest.all isBaseDigit = false := by
        cases h with
        | inl h => rw [hc] at h; cases h
        | inr h => exact h
      rw [decodeAux, get_base_of_digit ctx c hc]
      show decodeAux ctx rest (i + 1) (acc + specDigit c * 64 ^ i) = _
      rw [ih hrest]
      unfold firstNonDigit
      rw [List.find?_cons_of_neg _ (by simp [hc])]

theorem leValue_concat (xs : List Char) (c : Char) :
    leValue (xs ++ [c]) = leValue xs + specDigit c * 64 ^ xs.length := by
  induction xs with
  | nil => simp [leValue]
  | cons x xs ih => simp [leValue, ih]; ring

theorem bigEndianValue_eq_leValue_reverse (l : List Char) :
    bigEndianValue l = leValue l.reverse := by
  induction l with
  | nil => rfl
  | cons c rest ih =>
    rw [bigEndianValue, List.reverse_cons, leValue_concat, ih, List.length_reverse]
    ring

theorem decode_number_of_digits (ctx : Context) (s : List Char)
    (h : s.all isBaseDigit = true) : decode_number ctx s = .ok (bigEndianValue s) := by
  rw [decode_number, decodeAux_of_digits ctx s.reverse (by simpa using h),
    bigEndianValue_eq_leValue_reverse]
  simp

theorem decode_number_of_nonDigit (ctx : Context) (s : List Char)
    (h : s.all isBaseDigit = false) :
    decode_number ctx s
      = .error (.InvalidCharacter (firstNonDigit s.reverse) ctx.line ctx.pos) := by
  rw [decode_number, decodeAux_of_nonDigit ctx s.reverse (by simpa using h)]

/-- Claim **C4.** For every string over the digit alphabet `A..Z a..z 0..9 + /`
(mapped to `0..63`), `decode_number` returns the big-endian value
`Σ digit(c_i) · 64^(L-1-i)`; the empty string decodes to `0`, and in
particular `decode_number "3W/" = 226751`. -/
theorem decode_number_bigEndian :
    (∀ (ctx : Context) (s : List Char), s.all isBaseDigit = true →
      decode_number ctx s = .ok (bigEndianValue s))
    ∧ decode_number ⟨0, 0⟩ [] = .ok 0
    ∧ decode_number ⟨0, 0⟩ "3W/".data = .ok 226751 :=
  ⟨decode_number_of_digits, by decide, by decide⟩

/-- Witness for C4: the hypothesis and conclusion at the concrete digit
string `"3fW2"` (value `14546358`, the spec's §8 example). -/
theorem decode_number_bigEndian_witness :
    "3fW2".data.all isBaseDigit = true
    ∧ decode_number ⟨0, 0⟩ "3fW2".data = .ok (bigEndianValue "3fW2".data) :=
  ⟨by decide, decode_number_bigEndian.1 ⟨0, 0⟩ "3fW2".data (by decide)⟩

/-! ## Lemmas about `parse_line` and `parse_metadata` -/

/-- Claim **C9 counterexample.** On the line `ab\tc$\tC` the invalid character
`'$'` sits at position 4 of the line, but the reported `InvalidCharacter`
column is 2 — the byte length of the headword `ab`, not the character's
position within the line.  (Line number 0 is correct.) -/
theorem parse_line_column_counterexample :
    parse_line ⟨0, 0⟩ "ab\tc$\tC".data = .error (.InvalidCharacter '$' 0 2)
    ∧ "ab\tc$\tC".data.indexOf '$' = 4 := by
  constructor <;> decide

/-- Claim **C9 (amended).** For an index line whose offset or size field contains
a character outside the base-64 alphabet, parsing fails with
`InvalidCharacter` carrying the *last* such character of the field
(`decode_number` scans the field in reverse), the current line number, and
a column equal to the combined byte length of the fields preceding the bad
field — the headword length for an offset-field error, headword length plus
offset-field length for a size-field error — *not* the character's position
within the line (the separating tabs are not counted). -/
theorem parse_line_invalidChar :
    (∀ (ctx : Context) (line word f1 f2 : List Char) (restPieces : List (List Char)),
      splitOnChar '\t' line = word :: f1 :: f2 :: restPieces →
      f1.all isBaseDigit = false →
      parse_line ctx line
        = .error (.InvalidCharacter (firstNonDigit f1.reverse) ctx.line (byteLen word)))
    ∧ (∀ (ctx : Context) (line word f1 f2 : List Char) (restPieces : List (List Char)),
      splitOnChar '\t' line = word :: f1 :: f2 :: restPieces →
      f1.all isBaseDigit = true →
      f2.all isBaseDigit = false →
      parse_line ctx line
        = .error (.InvalidCharacter (firstNonDigit f2.reverse) ctx.line
            (byteLen word + byteLen f1))) := by
  constructor
  · intro ctx line word f1 f2 restPieces hsplit h1
    rw [parse_line, hsplit, parseFields]
    simp only [decode_number_of_nonDigit _ f1 h1]
  · intro ctx line word f1 f2 restPieces hsplit h1 h2
    rw [parse_line, hsplit, parseFields]
    simp only [decode_number_of_digits _ f1 h1, decode_number_of_nonDigit _ f2 h2]

/-- Witness for C9 (amended), at the line `wx\tZ#9\tAA` with context line 7:
the rightmost invalid character of the offset field is `'#'` and the
reported column is 2 (the byte length of `wx`). -/
theorem parse_line_invalidChar_witness :
    parse_line ⟨7, 3⟩ "wx\tZ#9\tAA".data = .error (.InvalidCharacter '#' 7 2) := by
  have h := parse_line_invalidChar.1 ⟨7, 3⟩ "wx\tZ#9\tAA".data
    "wx".data "Z#9".data "AA".data [] (by decide) (by decide)
  simpa using h

theorem decode_number_ok_ctx {ctx : Context} (ctx₂ : Context) {s : List Char} {v : Nat}
    (h : decode_number ctx s = .ok v) : decode_number ctx₂ s = .ok v := by
  cases hall : s.all isBaseDigit
  · rw [decode_number_of_nonDigit ctx s hall] at h
    exact Except.noConfusion h
  · rw [decode_number_of_digits ctx s hall] at h
    rw [decode_number_of_digits ctx₂ s hall]
    exact h

/-- A successful `parseFields` yields the same entry whatever the incoming
context; only the returned line counter depends on it. -/
theorem parseFields_ok_ctx (ctx ctx₂ : Context) (pieces : List (List Char)) (e : Entry)
    (c' : Context) (h : parseFields ctx pieces = .ok (e, c')) :
    parseFields ctx₂ pieces = .ok (e, ⟨ctx₂.line + 1, 0⟩) := by
  rcases pieces with _ | ⟨word, _ | ⟨s1, _ | ⟨s2, rest3⟩⟩⟩
  · exact Except.noConfusion h
  · exact Except.noConfusion h
  · exact Except.noConfusion h
  · rw [parseFields] at h ⊢
    cases hd1 : decode_number { line := ctx.line, pos := byteLen word } s1 with
    | error e1 => rw [hd1] at h; exact Except.noConfusion h
    | ok v1 =>
      rw [hd1] at h
      rw [decode_number_ok_ctx { line := ctx₂.line, pos := byteLen word } hd1]
      cases hd2 : decode_number { line := ctx.line, pos := byteLen word + byteLen s1 } s2 with
      | error e2 => rw [hd2] at h; exact Except.noConfusion h
      | ok v2 =>
        rw [hd2] at h
        rw [decode_number_ok_ctx { line := ctx₂.line, pos := byteLen word + byteLen s1 } hd2]
        simp only [Except.ok.injEq, Prod.mk.injEq] at h ⊢
        exact ⟨h.1, trivial⟩

/-- A successful `parse_line` yields the same entry whatever the incoming
context; only the returned line counter depends on it. -/
theorem parse_line_ok_ctx (ctx ctx₂ : Context) (l : List Char) (e : Entry) (c' : Context)
    (h : parse_line ctx l = .ok (e, c')) :
    parse_line ctx₂ l = .ok (e, ⟨ctx₂.line + 1, 0⟩) :=
  parseFields_ok_ctx ctx ctx₂ (splitOnChar '\t' l) e c' h

theorem wfNonMetaLine_elim (l : List Char) (h : wfNonMetaLine l = true) :
    ∃ e c', parse_line ⟨0, 0⟩ (trimEndChars l) = .ok (e, c')
      ∧ metaSection e.headword = none := by
  unfold wfNonMetaLine lineEntry at h
  cases hp : parse_line ⟨0, 0⟩ (trimEndChars l) with
  | error er => simp only [hp] at h; exact Bool.noConfusion h
  | ok p =>
    obtain ⟨e, c'⟩ := p
    simp only [hp] at h
    exact ⟨e, c', rfl, Option.isNone_iff_eq_none.mp h⟩

theorem wfMetaLine_elim (l : List Char) (h : wfMetaLine l = true) :
    ∃ e c' s, parse_line ⟨0, 0⟩ (trimEndChars l) = .ok (e, c')
      ∧ metaSection e.headword = some s := by
  unfold wfMetaLine lineEntry at h
  cases hp : parse_line ⟨0, 0⟩ (trimEndChars l) with
  | error er => simp only [hp] at h; exact Bool.noConfusion h
  | ok p =>
    obtain ⟨e, c'⟩ := p
    simp only [hp] at h
    obtain ⟨s, hs⟩ := Option.isSome_iff_exists.mp h
    exact ⟨e, c', s, rfl, hs⟩

theorem parseMetadataGo_cons (l : List Char) (rest : List (List Char)) (ctx : Context)
    (m : MetadataIndex) (b : Bool) :
    parseMetadataGo (l :: rest) ctx m b
      = match parse_line ctx (trimEndChars l) with
        | .error e => .error e
        | .ok (entry, ctx') =>
          match metaSection entry.headword with
          | some s => parseMetadataGo rest ctx' (classifyMeta m s entry.location) true
          | none => if b then .ok m else parseMetadataGo rest ctx' m false := rfl

/-- Once `reading_info` is set, a run of metadata lines folds into the
accumulator and the next well-formed non-metadata line stops the scan. -/
theorem parseMetadataGo_metas (l : List Char) (rest : List (List Char))
    (hl : wfNonMetaLine l = true) :
    ∀ (metas : List (List Char)), metas.all wfMetaLine = true →
      ∀ (ctx : Context) (m : MetadataIndex),
        parseMetadataGo (metas ++ l :: rest) ctx m true = .ok (metas.foldl metaStep m) := by
  intro metas
  induction metas with
  | nil =>
    intro _ ctx m
    obtain ⟨e, c', hp, hns⟩ := wfNonMetaLine_elim l hl
    have hp' := parse_line_ok_ctx ⟨0, 0⟩ ctx _ _ _ hp
    simp only [List.nil_append, List.foldl_nil]
    rw [parseMetadataGo_cons]
    simp [hp', hns]
  | cons m0 ms ih =>
    intro hall ctx m
    rw [List.all_cons, Bool.and_eq_true] at hall
    obtain ⟨e, c', s, hp, hs⟩ := wfMetaLine_elim m0 hall.1
    have hp' := parse_line_ok_ctx ⟨0, 0⟩ ctx _ _ _ hp
    simp only [List.cons_append]
    rw [parseMetadataGo_cons]
    simp only [hp', hs]
    have hstep : metaStep m m0 = classifyMeta m s e.location := by
      unfold metaStep lineEntry
      simp [hp, hs]
    rw [ih hall.2, List.foldl_cons, hstep]

/-- Before any metadata line has been seen, well-formed non-metadata lines
are skipped (only the line counter of the context changes). -/
theorem parseMetadataGo_pre (tail : List (List Char)) :
    ∀ (pre : List (List Char)), pre.all wfNonMetaLine = true →
      ∀ (ctx : Context) (m : MetadataIndex),
        ∃ ctx', parseMetadataGo (pre ++ tail) ctx m false
          = parseMetadataGo tail ctx' m false := by
  intro pre
  induction pre with
  | nil => exact fun _ ctx m => ⟨ctx, rfl⟩
  | cons p ps ih =>
    intro hall ctx m
    rw [List.all_cons, Bool.and_eq_true] at hall
    obtain ⟨e, c', hp, hns⟩ := wfNonMetaLine_elim p hall.1
    have hp' := parse_line_ok_ctx ⟨0, 0⟩ ctx _ _ _ hp
    simp only [List.cons_append]
    rw [parseMetadataGo_cons]
    simp only [hp', hns, Bool.false_eq_true, if_false]
    exact ih hall.2 _ m

/-- Claim **C8 (amended).** `parse_metadata` scans from the start; before the
first metadata line, any line that *parses as a well-formed index line* is
tolerated; the scan stops at the first well-formed non-metadata line after
at least one metadata line and returns the `MetadataIndex` accumulated from
the classified metadata tails (whatever follows the stopping line is not
read).  A malformed leading line, however, aborts the scan with a parse
error (see the counterexample), so "any line is tolerated" holds only for
lines that parse. -/
theorem parse_metadata_spec :
    ∀ (pre : List (List Char)) (m0 : List Char) (ms : List (List Char)) (l : List Char)
      (rest : List (List Char)),
      pre.all wfNonMetaLine = true →
      (m0 :: ms).all wfMetaLine = true →
      wfNonMetaLine l = true →
      parse_metadata (pre ++ (m0 :: ms) ++ l :: rest) = .ok (accumulateMeta (m0 :: ms)) := by
  intro pre m0 ms l rest hpre hmetas hl
  rw [List.all_cons, Bool.and_eq_true] at hmetas
  unfold parse_metadata
  rw [List.append_assoc]
  simp only [List.cons_append]
  obtain ⟨ctx', hskip⟩ := parseMetadataGo_pre (m0 :: (ms ++ l :: rest)) pre hpre ⟨0, 0⟩ {}
  rw [hskip]
  obtain ⟨e, c', s, hp, hs⟩ := wfMetaLine_elim m0 hmetas.1
  have hp' := parse_line_ok_ctx ⟨0, 0⟩ ctx' _ _ _ hp
  rw [parseMetadataGo_cons]
  simp only [hp', hs]
  rw [parseMetadataGo_metas l rest hl ms hmetas.2]
  unfold accumulateMeta
  have hstep : metaStep {} m0 = classifyMeta {} s e.location := by
    unfold metaStep lineEntry
    simp [hp, hs]
  rw [List.foldl_cons, hstep]

/-- Claim **C8 counterexample.** A leading line that does not parse as an index
line (here `garbage`, which has no tab columns) aborts `parse_metadata`
with `MissingColumnInIndex` even though a metadata line follows — the
claim's "before that point any line is tolerated" fails for malformed
lines. -/
theorem parse_metadata_counterexample :
    parse_metadata ["garbage".data, "00-database-allchars\tA\tA".data]
      = .error (.MissingColumnInIndex 0) := by
  decide

/-- Witness for C8 (amended): one tolerated leading line, two metadata
lines (`allchars` and a no-dash `url`), a stopping line, and unread junk
after it. -/
theorem parse_metadata_spec_witness :
    parse_metadata
        ["w\tA\tA".data, "00-database-allchars\tA\tA".data, "00databaseurl\tB\tC".data,
         "x\tA\tA".data, "junk".data]
      = .ok (accumulateMeta ["00-database-allchars\tA\tA".data, "00databaseurl\tB\tC".data]) :=
  parse_metadata_spec ["w\tA\tA".data] "00-database-allchars\tA\tA".data
    ["00databaseurl\tB\tC".data] "x\tA\tA".data ["junk".data]
    (by decide) (by decide) (by decide)

/-- Claim **C1.** The left-run walk of exact `find` iterates `for i in 0..pivot`
**from index 0** and breaks at the first non-matching entry, so an equal
neighbour immediately left of the pivot is returned only when the run
starts at index 0.  On this sorted five-entry vector the query `b` hits
pivot 2 and `find` returns only the entries at indices 2 and 3, omitting
the equal entry at index 1 — contradicting both the spec ("walk left and
right from the pivot to gather the contiguous run") and the source's own
comment ("Search for all matching headwords left of the word"). -/
theorem find_left_run_bug :
    find id {} c1Entries "b" false
      = .ok [⟨"b", ⟨2, 1⟩, none⟩, ⟨"b", ⟨3, 1⟩, none⟩]
    ∧ (⟨"b", ⟨1, 1⟩, none⟩ : Entry) ∈ c1Entries
    ∧ ((c1Entries.zip c1Entries.tail).all
        (fun p => cmpString p.1.headword p.2.headword ≠ Ordering.gt)) = true := by
  refine ⟨by decide, by decide, by decide⟩

theorem ite_run_ok {α : Type} (cond : Prop) [Decidable cond] (a b : RunResult α) (v : α)
    (h : (if cond then a else b) = .ok v) : a = .ok v ∨ b = .ok v := by
  by_cases hc : cond
  · rw [if_pos hc] at h; exact Or.inl h
  · rw [if_neg hc] at h; exact Or.inr h

theorem liftSkip_ok {α : Type} (r : Except DictError Nat) (f : Nat → RunResult α) (v : α)
    (h : liftSkip r f = .ok v) : ∃ pos, r = .ok pos ∧ f pos = .ok v := by
  cases r with
  | error e => exact RunResult.noConfusion h
  | ok pos => exact ⟨pos, rfl, h⟩

theorem signExt_lt_iff (v : Nat) :
    ((if v < 2 ^ 31 then v else v + (2 ^ 64 - 2 ^ 32)) < 2 ^ 32) ↔ v < 2 ^ 31 := by
  have e1 : (2 : Nat) ^ 31 = 2147483648 := by norm_num
  have e2 : (2 : Nat) ^ 32 = 4294967296 := by norm_num
  have e3 : (2 : Nat) ^ 64 - 2 ^ 32 = 18446744069414584320 := by norm_num
  split <;> rename_i hv
  · simp only [e1, e2] at hv ⊢
    omega
  · simp only [e1, e2, e3] at hv ⊢
    omega

/-- Claim **C6 counterexample.** On the two-byte input `0x1F 0x8C` the 12-byte
header read fails first: `Compressed::new` returns the wrapped
`UnexpectedEof` I/O error of `read_exact`, not `InvalidFileFormat` — the
magic check is never reached. -/
theorem compressed_new_short_input_io_error :
    Compressed.new [0x1F, 0x8C] = .fails (.IoError .UnexpectedEof)
    ∧ isInvalidFileFormat (Compressed.new [0x1F, 0x8C]) = false := by
  refine ⟨by decide, by decide⟩

/-- Claim **C6 (amended).** The two-byte input `0x1F 0x8C` fails with the
`UnexpectedEof` I/O error of the 12-byte header read; an input of at least
12 bytes whose first two bytes are `0x1F 0x8C` fails the magic check with
`InvalidFileFormat`. -/
theorem compressed_new_magic_check :
    Compressed.new [0x1F, 0x8C] = .fails (.IoError .UnexpectedEof)
    ∧ Compressed.new ([0x1F, 0x8C] ++ List.replicate 10 0)
        = .fails (.InvalidFileFormat "Not in gzip format") := by
  refine ⟨by decide, by decide⟩

/-- Claim **C7 counterexample.** `exDzBytes` is accepted by `Compressed::new`
(it is a valid dictzip stream), yet `Dict::from_file` with a path whose
extension is `dict` hands the very same bytes to the *uncompressed* reader:
the choice is made from the file-name suffix, not the gzip magic. -/
theorem from_file_ignores_magic :
    Compressed.new exDzBytes = .ok exDzParsed
    ∧ from_file (some "dict") exDzBytes = .ok (.uncompressed ⟨exDzBytes, 33⟩) := by
  refine ⟨by decide, by decide⟩

/-- Claim **C7 (amended).** The content reader is chosen by the file-name
extension alone: any path whose extension is not `dz` gets the raw reader
regardless of the bytes, and a `.dz`-named file is handed to
`Compressed::new`, which then validates the gzip magic (so a `.dz`-named
non-gzip file of at least 12 bytes fails with `InvalidFileFormat`). -/
theorem from_file_dispatch :
    ∀ (ext : Option String) (bytes : List Nat),
      (ext ≠ some "dz" → from_file ext bytes = .ok (.uncompressed ⟨bytes, bytes.length⟩))
      ∧ (12 ≤ bytes.length → ¬ bytes.take 2 = [0x1F, 0x8B] →
          from_file (some "dz") bytes = .fails (.InvalidFileFormat "Not in gzip format")) := by
  intro ext bytes
  constructor
  · intro hne
    unfold from_file
    rw [if_neg hne]
    rfl
  · intro hlen hmagic
    unfold from_file
    rw [if_pos rfl]
    unfold Compressed.new
    rw [if_neg (by omega : ¬ ¬ 12 ≤ bytes.length)]
    have htake : (bytes.take 12).take 2 = bytes.take 2 := by
      rw [List.take_take]
      norm_num
    rw [if_pos (by rw [htake]; exact hmagic)]

/-- Witness for C7 (amended): a `dict`-extension path gets the raw reader;
a 12-byte non-gzip `.dz` file is rejected as `InvalidFileFormat`. -/
theorem from_file_dispatch_witness :
    from_file (some "dict") [5] = .ok (.uncompressed ⟨[5], 1⟩)
    ∧ from_file (some "dz") (List.replicate 12 7)
        = .fails (.InvalidFileFormat "Not in gzip format") :=
  ⟨(from_file_dispatch (some "dict") [5]).1 (by decide),
   (from_file_dispatch (some "dz") (List.replicate 12 7)).2 (by decide) (by decide)⟩

/-- Claim **C5 counterexample.** The header `c5Bytes`, whose 32-bit length field
is `0xFFFFFFFF` (top bit set), is *accepted*, and the stored `ufile_length`
is the sign-extension `2^64 - 1` — not the unsigned field value
`2^32 - 1`, and not below `2^32`: the source reads the field with
`read_i32` and widens with `as u64`. -/
theorem compressed_new_sign_extension_counterexample :
    Compressed.new c5Bytes
      = .ok { buf := c5Bytes, uchunk_length := 10, end_compressed_data := 29,
              chunk_offsets := [24], ufile_length := 18446744073709551615 }
    ∧ readU32LE c5Bytes 29 = 4294967295
    ∧ ¬ (18446744073709551615 : Nat) < 2 ^ 32 := by
  refine ⟨by decide, by decide, by decide⟩

/-- Claim **C5 (amended).** For every accepted dictzip header, the stored
`ufile_length` is the 32-bit little-endian field at `end_compressed_data`
read as a *signed* `i32` and sign-extended to 64 bits; it equals the
unsigned field value — and in particular stays below `2^32` — exactly when
the field's top bit is clear. -/
theorem compressed_new_ufile_sign_extension :
    ∀ (bytes : List Nat) (c : Compressed), Compressed.new bytes = .ok c →
      c.ufile_length
        = (if readU32LE c.buf c.end_compressed_data < 2 ^ 31
           then readU32LE c.buf c.end_compressed_data
           else readU32LE c.buf c.end_compressed_data + (2 ^ 64 - 2 ^ 32))
      ∧ (c.ufile_length < 2 ^ 32 ↔ readU32LE c.buf c.end_compressed_data < 2 ^ 31) := by
  intro bytes c h
  unfold Compressed.new at h
  dsimp only at h
  rcases ite_run_ok _ _ _ _ h with h | h; · exact RunResult.noConfusion h
  rcases ite_run_ok _ _ _ _ h with h | h; · exact RunResult.noConfusion h
  rcases ite_run_ok _ _ _ _ h with h | h; · exact RunResult.noConfusion h
  rcases ite_run_ok _ _ _ _ h with h | h; · exact RunResult.noConfusion h
  rcases ite_run_ok _ _ _ _ h with h | h; · exact RunResult.noConfusion h
  rcases ite_run_ok _ _ _ _ h with h | h; · exact RunResult.noConfusion h
  rcases ite_run_ok _ _ _ _ h with h | h; · exact RunResult.noConfusion h
  rcases ite_run_ok _ _ _ _ h with h | h; · exact RunResult.noConfusion h
  rcases ite_run_ok _ _ _ _ h with h | h; · exact RunResult.noConfusion h
  rcases ite_run_ok _ _ _ _ h with h | h; · exact RunResult.noConfusion h
  rcases ite_run_ok _ _ _ _ h with h | h; · exact RunResult.noConfusion h
  rcases ite_run_ok _ _ _ _ h with h | h; · exact RunResult.noConfusion h
  rcases ite_run_ok _ _ _ _ h with h | h; · exact RunResult.noConfusion h
  rcases ite_run_ok _ _ _ _ h with h | h; · exact RunResult.noConfusion h
  obtain ⟨pos1, -, h⟩ := liftSkip_ok _ _ _ h
  try dsimp only at h
  obtain ⟨pos2, -, h⟩ := liftSkip_ok _ _ _ h
  try dsimp only at h
  rcases ite_run_ok _ _ _ _ h with h | h; · exact RunResult.noConfusion h
  rcases ite_run_ok _ _ _ _ h with h | h; · exact RunResult.noConfusion h
  injection h with h
  subst h
  exact ⟨rfl, signExt_lt_iff _⟩

/-- Witness for C5 (amended), at the accepted header `exDzBytes` (length
field 7, top bit clear). -/
theorem compressed_new_ufile_sign_extension_witness :
    exDzParsed.ufile_length
      = (if readU32LE exDzParsed.buf exDzParsed.end_compressed_data < 2 ^ 31
         then readU32LE exDzParsed.buf exDzParsed.end_compressed_data
         else readU32LE exDzParsed.buf exDzParsed.end_compressed_data + (2 ^ 64 - 2 ^ 32))
    ∧ (exDzParsed.ufile_length < 2 ^ 32
        ↔ readU32LE exDzParsed.buf exDzParsed.end_compressed_data < 2 ^ 31) :=
  compressed_new_ufile_sign_extension exDzBytes exDzParsed (by decide)

/-- Claim **C3.** The bound validation of `Compressed::fetch_definition` uses the
strict `start_offset + length < ufile_length`, so the request `(0, 8)`,
whose end falls exactly at `ufile_length = 8`, is rejected with
`UnexpectedEof` — although the whole 8-byte content exists, the spec says
`offset + size ≤ ufile_length` passes, and the `Uncompressed` sibling
accepts the same boundary request with its `≤` check.  The strictly
interior request `(0, 7)` succeeds. -/
theorem fetch_definition_boundary_rejected :
    Compressed.fetch_definition exOracle exC3 0 8 = .fails (.IoError .UnexpectedEof)
    ∧ (Uncompressed.new [10, 20, 30, 40, 50, 60, 70, 80]).bind
        (fun u => u.fetch_definition ⟨0, 8⟩) = .ok [10, 20, 30, 40, 50, 60, 70, 80]
    ∧ Compressed.fetch_definition exOracle exC3 0 7 = .ok [10, 20, 30, 40, 50, 60, 70] := by
  refine ⟨by decide, by decide, by decide⟩

theorem getChunksGo_ok (c : Compressed) :
    ∀ (ids : List Nat), (∀ id ∈ ids, id < c.chunk_offsets.length) →
      getChunksGo c ids = .ok (ids.map (chunk_of c)) := by
  intro ids
  induction ids with
  | nil => intro _; rfl
  | cons i rest ih =>
    intro hall
    rw [getChunksGo, if_pos (hall i (List.mem_cons_self i rest))]
    rw [ih (fun id hid => hall id (List.mem_cons_of_mem i hid))]
    rfl

theorem get_chunks_for_ok (c : Compressed) (offset size : Nat) (hu : 0 < c.uchunk_length)
    (hstop : (offset + size) / c.uchunk_length < c.chunk_offsets.length) :
    get_chunks_for c offset size
      = .ok ((List.range' (offset / c.uchunk_length)
          ((offset + size) / c.uchunk_length - offset / c.uchunk_length + 1)).map
            (chunk_of c)) := by
  unfold get_chunks_for
  rw [if_neg (by omega)]
  apply getChunksGo_ok
  intro id hid
  rw [List.mem_range'_1] at hid
  have hmono : offset / c.uchunk_length ≤ (offset + size) / c.uchunk_length :=
    Nat.div_le_div_right (Nat.le_add_right offset size)
  omega

/-- Claim **C10.** Under `uchunk_length > 0` and
`ufile_length ≤ chunk_count · uchunk_length`, every request that passes
`fetch_definition`'s bound validation (`offset + size < ufile_length`, with
`size ≤ MAX_BYTES_FOR_BUFFER`) makes `get_chunks_for` touch only chunk ids
below `chunk_offsets.len()`, so the unchecked `chunk_offsets[id]` indexing
cannot panic and the chunk list is returned; without that relation the
indexing can go out of bounds, as the state `cBad` shows. -/
theorem get_chunks_for_panic_free :
    (∀ (c : Compressed) (offset size : Nat),
      0 < c.uchunk_length →
      c.ufile_length ≤ c.chunk_offsets.length * c.uchunk_length →
      size ≤ MAX_BYTES_FOR_BUFFER →
      offset + size < c.ufile_length →
      get_chunks_for c offset size
        = .ok ((List.range' (offset / c.uchunk_length)
            ((offset + size) / c.uchunk_length - offset / c.uchunk_length + 1)).map
              (chunk_of c)))
    ∧ get_chunks_for cBad 0 3 = .panics := by
  constructor
  · intro c offset size hu hcov _ hend
    refine get_chunks_for_ok c offset size hu ?_
    rw [Nat.div_lt_iff_lt_mul hu]
    omega
  · decide

/-- Witness for C10, at the two-chunk state `exC3` and the request
`(0, 7)`. -/
theorem get_chunks_for_panic_free_witness :
    get_chunks_for exC3 0 7
      = .ok ((List.range' (0 / exC3.uchunk_length)
          ((0 + 7) / exC3.uchunk_length - 0 / exC3.uchunk_length + 1)).map (chunk_of exC3)) :=
  get_chunks_for_panic_free.1 exC3 0 7 (by decide) (by decide) (by decide) (by decide)

theorem chunkWindow_length (content : List Nat) (u id : Nat) :
    (chunkWindow content u id).length = min u (content.length - id * u) := by
  simp [chunkWindow]

theorem chunkWindow_length_le (content : List Nat) (u id : Nat) :
    (chunkWindow content u id).length ≤ u := by
  rw [chunkWindow_length]
  exact Nat.min_le_left _ _

theorem inflate_model_eq_append {u : Nat} {w : List Nat} (hw : w.length ≤ u) :
    inflate_model u w = w ++ List.replicate (u - w.length) 0 := by
  unfold inflate_model
  rw [List.take_of_length_le hw]

theorem inflate_model_length {u : Nat} {w : List Nat} (hw : w.length ≤ u) :
    (inflate_model u w).length = u := by
  rw [inflate_model_eq_append hw]
  simp
  omega

theorem inflate_model_drop_take {u : Nat} (w : List Nat) (a b : Nat) (hw : w.length ≤ u)
    (hab : a + b ≤ w.length) :
    ((inflate_model u w).drop a).take b = (w.drop a).take b := by
  rw [inflate_model_eq_append hw, List.drop_append_of_le_length (by omega),
    List.take_append_of_le_length (by rw [List.length_drop]; omega)]

theorem inflate_model_take {u : Nat} (w : List Nat) (b : Nat) (hw : w.length ≤ u)
    (hb : b ≤ w.length) :
    (inflate_model u w).take b = w.take b := by
  rw [inflate_model_eq_append hw, List.take_append_of_le_length hb]

theorem chunkWindow_drop_take (content : List Nat) (u id a b : Nat) (hab : a + b ≤ u) :
    ((chunkWindow content u id).drop a).take b = (content.drop (id * u + a)).take b := by
  unfold chunkWindow
  rw [List.drop_take, List.drop_drop, List.take_take,
    Nat.min_eq_left (by omega : b ≤ u - a)]

theorem chunkWindow_full (content : List Nat) (u id : Nat)
    (h : (id + 1) * u ≤ content.length) :
    (chunkWindow content u id).length = u
    ∧ inflate_model u (chunkWindow content u id) = chunkWindow content u id := by
  have he : (id + 1) * u = id * u + u := by ring
  have hlen : (chunkWindow content u id).length = u := by
    rw [chunkWindow_length, Nat.min_eq_left (by omega)]
  refine ⟨hlen, ?_⟩
  rw [inflate_model_eq_append (le_of_eq hlen), hlen]
  simp

theorem flatten_chunkWindows (content : List Nat) (u : Nat) :
    ∀ (k a : Nat), (a + k) * u ≤ content.length →
      ((List.range' a k).map (fun id => inflate_model u (chunkWindow content u id))).flatten
        = (content.drop (a * u)).take (k * u) := by
  intro k
  induction k with
  | zero => intro a _; simp
  | succ k ih =>
    intro a h
    rw [List.range'_succ, List.map_cons, List.flatten_cons]
    have hfull := chunkWindow_full content u a (by
      have e : (a + 1) * u ≤ (a + (k + 1)) * u := Nat.mul_le_mul_right u (by omega)
      omega)
    rw [hfull.2, ih (a + 1) (by rw [show (a + 1 + k) * u = (a + (k + 1)) * u from by ring]; exact h)]
    unfold chunkWindow
    rw [show (k + 1) * u = u + k * u from by ring, List.take_add, List.drop_drop,
      show a * u + u = (a + 1) * u from by ring]

theorem mapInflate_ok (oracle : List Nat → Except DictError (List Nat)) (c : Compressed)
    (content : List Nat)
    (horacle : ∀ id, id < c.chunk_offsets.length →
      readAndInflate oracle c (chunk_of c id)
        = .ok (inflate_model c.uchunk_length (chunkWindow content c.uchunk_length id))) :
    ∀ (ids : List Nat), (∀ id ∈ ids, id < c.chunk_offsets.length) →
      mapInflate oracle c (ids.map (chunk_of c))
        = .ok (ids.map (fun id =>
            inflate_model c.uchunk_length (chunkWindow content c.uchunk_length id))) := by
  intro ids
  induction ids with
  | nil => intro _; rfl
  | cons i rest ih =>
    intro hall
    rw [List.map_cons, mapInflate, horacle i (hall i (List.mem_cons_self i rest)),
      ih (fun id hid => hall id (List.mem_cons_of_mem i hid))]
    rfl

theorem splice_one (u cut len : Nat) (d : List Nat) :
    splice u cut len [d]
      = match sliceRange d cut (cut + len) with
        | some r => .ok r
        | none => .panics := rfl

theorem splice_cons_of_ne (u cut len : Nat) (d : List Nat) (ds : List (List Nat))
    (h : ds ≠ []) :
    splice u cut len (d :: ds)
      = match sliceFrom d cut, sliceTo (ds.getLastD []) ((len + cut) % u) with
        | some front, some back => .ok (front ++ ds.dropLast.flatten ++ back)
        | _, _ => .panics := by
  cases ds with
  | nil => exact absurd rfl h
  | cons d2 ds2 => rfl

/-- The single-chunk splice: when the request stays inside one chunk, the
slice `[cut_front .. cut_front + size]` of the inflated buffer is the
requested content slice. -/
theorem splice_single (content : List Nat) (u offset size : Nat) (hu : 0 < u)
    (hsame : offset / u = (offset + size) / u)
    (hlen_gt : offset + size < content.length) :
    splice u (offset % u) size [inflate_model u (chunkWindow content u (offset / u))]
      = .ok ((content.drop offset).take size) := by
  set start := offset / u with hstartdef
  set cut := offset % u with hcutdef
  have h1 : u * start + cut = offset := Nat.div_add_mod offset u
  have hcomm : u * start = start * u := Nat.mul_comm u start
  have h2 : offset + size < (start + 1) * u := by
    have := (Nat.div_lt_iff_lt_mul hu).mp
      (show (offset + size) / u < start + 1 by rw [← hsame]; omega)
    omega
  have he : (start + 1) * u = start * u + u := by ring
  have hcs : cut + size < u := by omega
  have hwge : cut + size ≤ (chunkWindow content u start).length := by
    rw [chunkWindow_length, Nat.le_min]
    exact ⟨by omega, by omega⟩
  rw [splice_one, sliceRange, if_pos
    ⟨Nat.le_add_right cut size,
     by rw [inflate_model_length (chunkWindow_length_le content u start)]; omega⟩]
  rw [Nat.add_sub_cancel_left]
  rw [inflate_model_drop_take _ cut size (chunkWindow_length_le content u start) hwge]
  rw [chunkWindow_drop_take content u start cut size (by omega)]
  rw [show start * u + cut = offset from by omega]

/-- The multi-chunk splice: the first chunk's tail, the full interior
chunks, and the last chunk's head concatenate to the requested content
slice. -/
theorem splice_multi (content : List Nat) (u offset size : Nat) (hu : 0 < u)
    (hlt : offset / u < (offset + size) / u)
    (hlen_gt : offset + size < content.length) :
    splice u (offset % u) size
      ((List.range' (offset / u) ((offset + size) / u - offset / u + 1)).map
        (fun id => inflate_model u (chunkWindow content u id)))
      = .ok ((content.drop offset).take size) := by
  set start := offset / u with hstartdef
  set stop := (offset + size) / u with hstopdef
  set cut := offset % u with hcutdef
  set rem := (offset + size) % u with hremdef
  set f : Nat → List Nat := fun id => inflate_model u (chunkWindow content u id) with hfdef
  obtain ⟨m, hm⟩ : ∃ m, stop - start + 1 = m + 2 := ⟨stop - start - 1, by omega⟩
  have hmstop : start + 1 + m = stop := by omega
  have h1 : u * start + cut = offset := Nat.div_add_mod offset u
  have h2 : u * stop + rem = offset + size := Nat.div_add_mod (offset + size) u
  have hcomm1 : u * start = start * u := Nat.mul_comm u start
  have hcomm2 : u * stop = stop * u := Nat.mul_comm u stop
  have hremlt : rem < u := Nat.mod_lt _ hu
  have hcutlt : cut < u := Nat.mod_lt _ hu
  have hrem2 : (size + cut) % u = rem := by
    have h5 : offset + size = size + cut + u * start := by omega
    calc (size + cut) % u = (size + cut + u * start) % u :=
          (Nat.add_mul_mod_self_left (size + cut) u start).symm
      _ = (offset + size) % u := by rw [← h5]
  have hsucc : (start + 1) * u = start * u + u := by ring
  have hstopm : (start + 1) * u + m * u = stop * u := by rw [← hmstop]; ring
  have hfull_start := chunkWindow_full content u start (by omega)
  have hwin_stop_ge : rem ≤ (chunkWindow content u stop).length := by
    rw [chunkWindow_length, Nat.le_min]
    exact ⟨by omega, by omega⟩
  -- expose the chunk list as first chunk, interior chunks, last chunk
  rw [hm, List.range'_succ, List.map_cons]
  rw [splice_cons_of_ne _ _ _ _ _ (by
    rw [List.range'_succ]
    simp)]
  have hdecomp : (List.range' (start + 1) (m + 1)).map f
      = (List.range' (start + 1) m).map f ++ [f stop] := by
    rw [List.range'_concat, List.map_append]
    simp [hmstop]
  rw [hdecomp, List.getLastD_concat, List.dropLast_concat]
  rw [hrem2]
  -- the three pieces
  rw [show sliceFrom (f start) cut = some ((chunkWindow content u start).drop cut) from by
    rw [hfdef]
    dsimp only
    rw [hfull_start.2, sliceFrom, if_pos (by rw [hfull_start.1]; omega)]]
  rw [show sliceTo (f stop) rem = some ((chunkWindow content u stop).take rem) from by
    rw [hfdef]
    dsimp only
    rw [sliceTo, if_pos (by
        rw [inflate_model_length (chunkWindow_length_le content u stop)]
        omega),
      inflate_model_take _ rem (chunkWindow_length_le content u stop) hwin_stop_ge]]
  dsimp only
  -- rewrite the three pieces as content slices
  have hA : (chunkWindow content u start).drop cut = (content.drop offset).take (u - cut) := by
    have hlendrop : ((chunkWindow content u start).drop cut).length = u - cut := by
      rw [List.length_drop, hfull_start.1]
    rw [← List.take_of_length_le (le_of_eq hlendrop),
      chunkWindow_drop_take content u start cut (u - cut) (by omega),
      show start * u + cut = offset from by omega]
  have hB : ((List.range' (start + 1) m).map f).flatten
      = (content.drop ((start + 1) * u)).take (m * u) := by
    rw [hfdef]
    exact flatten_chunkWindows content u m (start + 1) (by
      have : (start + 1 + m) * u = stop * u := by rw [hmstop]
      omega)
  have hC : (chunkWindow content u stop).take rem = (content.drop (stop * u)).take rem := by
    rw [chunkWindow, List.take_take, Nat.min_eq_left (le_of_lt hremlt)]
  rw [hA, hB, hC]
  -- assemble
  have hsize : size = (u - cut) + (m * u + rem) := by
    have e1 : u * stop = u * start + u * m + u := by rw [← hmstop]; ring
    have e2 : u * m = m * u := Nat.mul_comm u m
    omega
  rw [show (content.drop offset).take size
      = (content.drop offset).take ((u - cut) + (m * u + rem)) from by rw [← hsize]]
  rw [List.take_add, List.drop_drop,
    show offset + (u - cut) = (start + 1) * u from by omega,
    List.take_add, List.drop_drop, hstopm, List.append_assoc]

/-- Claim **C2 (amended).** For every dictzip reader state satisfying the chunk
directory invariants — positive `uchunk_length`, `ufile_length` equal to
the decompressed content's length and covered by the chunk table — and a
decompressor that yields the `id`-th content window for chunk `id`,
`fetch_definition` on any request with `size ≤ MAX_BYTES_FOR_BUFFER` that
passes the source's bound validation (`offset + size < ufile_length` — the
strict bound; see the counterexample for the `=` boundary) returns exactly
`content[offset .. offset+size)`, including when the range straddles a
chunk boundary and when it ends exactly on one. -/
theorem fetch_definition_splice :
    ∀ (oracle : List Nat → Except DictError (List Nat)) (c : Compressed) (content : List Nat)
      (offset size : Nat),
      0 < c.uchunk_length →
      c.ufile_length = content.length →
      c.ufile_length ≤ c.chunk_offsets.length * c.uchunk_length →
      (∀ id, id < c.chunk_offsets.length →
        readAndInflate oracle c (chunk_of c id)
          = .ok (inflate_model c.uchunk_length (chunkWindow content c.uchunk_length id))) →
      size ≤ MAX_BYTES_FOR_BUFFER →
      offset + size < c.ufile_length →
      Compressed.fetch_definition oracle c offset size
        = .ok ((content.drop offset).take size) := by
  intro oracle c content offset size hu hlen hcover horacle hmax hend
  have hlen_gt : offset + size < content.length := by omega
  have hstoplt : (offset + size) / c.uchunk_length < c.chunk_offsets.length := by
    rw [Nat.div_lt_iff_lt_mul hu]
    omega
  have hmono : offset / c.uchunk_length ≤ (offset + size) / c.uchunk_length :=
    Nat.div_le_div_right (Nat.le_add_right offset size)
  have hids : ∀ id ∈ List.range' (offset / c.uchunk_length)
      ((offset + size) / c.uchunk_length - offset / c.uchunk_length + 1),
      id < c.chunk_offsets.length := by
    intro id hid
    rw [List.mem_range'_1] at hid
    omega
  unfold Compressed.fetch_definition
  rw [if_neg (not_not_intro hmax), if_neg (not_not_intro hend),
    get_chunks_for_ok c offset size hu hstoplt]
  simp only [mapInflate_ok oracle c content horacle _ hids]
  rcases Nat.eq_or_lt_of_le hmono with heq | hlt
  · rw [show (offset + size) / c.uchunk_length - offset / c.uchunk_length + 1 = 1 from by omega,
      List.range'_one]
    simp only [List.map_cons, List.map_nil]
    exact splice_single content c.uchunk_length offset size hu heq hlen_gt
  · exact splice_multi content c.uchunk_length offset size hu hlt hlen_gt

/-- Claim **C2 counterexample.** The range `(0, 7)` is contained in the
uncompressed content of `exC` (`0 + 7 ≤ ufile_length = 7`), and slicing the
whole decompressed content gives the full seven bytes — but `fetch` returns
the `UnexpectedEof` error instead of those bytes, because its bound
validation is strict (`offset + size < ufile_length`). -/
theorem fetch_definition_splice_counterexample :
    Compressed.fetch_definition exOracle exC 0 7 = .fails (.IoError .UnexpectedEof)
    ∧ 0 + 7 ≤ exC.ufile_length
    ∧ (exContent.drop 0).take 7 = exContent := by
  refine ⟨by decide, by decide, by decide⟩

/-- Witness for C2 (amended): the request `(2, 4)` on `exC` straddles the
first chunk boundary and returns `content[2..6]`. -/
theorem fetch_definition_splice_witness :
    Compressed.fetch_definition exOracle exC 2 4 = .ok ((exContent.drop 2).take 4) :=
  fetch_definition_splice exOracle exC exContent 2 4 (by decide) (by decide) (by decide)
    (by decide) (by decide) (by decide)

end Libdict
